import Mathlib

/-
Shallow embedding of sharphu/go-cache, file src/fifo/fifo.go.

Go values of type interface\x7b\x7d are modelled as `Option U` for an
arbitrary payload type `U`: `none` is Go's nil (which is both a storable
value and the sentinel `Get` returns for a missing key).

The Go struct fifo holds a doubly linked list `ll` (container/list) and a
map `cache : map[string]*list.Element` that indexes each key to its list
element; the two are kept consistent by every operation.  The embedding
represents the state by the list alone (front of the Lean list = front of
`ll` = oldest entry); the map lookup `f.cache[key]` is embedded as
`f.ll.find? (fun e => e.key == k)`, which in every state where keys are
unique (all reachable states) designates the same entry the map does.
The `onEvicted` callback is modelled by a Bool field recording whether a
callback is configured, and each operation returns, next to the new state,
the list of (key, value) pairs the callback was invoked with, in order.
`cache.CalcLen` lives in the repository's `cache` package, which is not
part of the sources here; it is kept as an abstract parameter
`calcLen : Option U -> Int` (the spec fixes only that it maps a stored
value to an integer byte count and ignores the key).
-/

namespace GoCache

/-- One cache entry, Go struct `entry \x7bkey string; value interface\x7b\x7d\x7d`. -/
structure Entry (U : Type) where
  key : String
  value : Option U
deriving DecidableEq, Repr

/-- The Go struct `fifo`: capacity bound, callback-configured flag, byte
accounting, and the ordered sequence (front = oldest). -/
structure Fifo (U : Type) where
  maxBytes : Int
  onEvicted : Bool
  usedBytes : Int
  ll : List (Entry U)
deriving DecidableEq, Repr

variable {U : Type}

/-- `(e *entry) Len()`: `cache.CalcLen(e.value)`. -/
def entryLen (calcLen : Option U → Int) (e : Entry U) : Int :=
  calcLen e.value

/-- `New(maxBytes, onEvicted)`: empty list, empty index, zero usedBytes. -/
def fifoNew (maxBytes : Int) (onEvicted : Bool) : Fifo U :=
  { maxBytes := maxBytes, onEvicted := onEvicted, usedBytes := 0, ll := [] }

/-- `(f *fifo) removeElement(e *list.Element)`: nil element is a no-op;
otherwise remove the element from the list (`eraseP` removes the first
entry with that key, which is the element itself in every consistent
state), subtract its byte size from usedBytes, delete its key from the
index, then invoke onEvicted with the removed key and value if configured.
Returns the new state and the callback invocations. -/
def removeElement (calcLen : Option U → Int) (f : Fifo U) (e : Option (Entry U)) :
    Fifo U × List (String × Option U) :=
  match e with
  | none => (f, [])
  | some en =>
      ({ f with ll := f.ll.eraseP (fun x => x.key == en.key),
                usedBytes := f.usedBytes - calcLen en.value },
       if f.onEvicted then [(en.key, en.value)] else [])

/-- `(f *fifo) Del(key)`: look the key up in the index and remove that
element (the lookup-miss branch of the Go code coincides with
`removeElement` of a nil element). -/
def fifoDel (calcLen : Option U → Int) (f : Fifo U) (k : String) :
    Fifo U × List (String × Option U) :=
  removeElement calcLen f (f.ll.find? (fun e => e.key == k))

/-- `(f *fifo) DelOldest()`: remove the front element of the list
(`f.ll.Front()` is nil exactly when the list is empty). -/
def fifoDelOldest (calcLen : Option U → Int) (f : Fifo U) :
    Fifo U × List (String × Option U) :=
  removeElement calcLen f f.ll.head?

/-- `(f *fifo) Set(key, value)`: if the key is indexed, move its element
to the back, adjust usedBytes by the byte delta and overwrite the value in
place, then return (no eviction check).  Otherwise push a new entry at the
back, index it, add its size to usedBytes, and if `maxBytes > 0 &&
usedBytes > maxBytes`, call DelOldest once. -/
def fifoSet (calcLen : Option U → Int) (f : Fifo U) (k : String) (v : Option U) :
    Fifo U × List (String × Option U) :=
  match f.ll.find? (fun e => e.key == k) with
  | some en =>
      ({ f with ll := f.ll.eraseP (fun e => e.key == k) ++ [⟨k, v⟩],
                usedBytes := f.usedBytes - calcLen en.value + calcLen v },
       [])
  | none =>
      let f1 : Fifo U :=
        { f with ll := f.ll ++ [⟨k, v⟩], usedBytes := f.usedBytes + calcLen v }
      if f1.maxBytes > 0 ∧ f1.usedBytes > f1.maxBytes then
        fifoDelOldest calcLen f1
      else
        (f1, [])

/-- `(f *fifo) Get(key)`: return the indexed entry's value, or nil when
the key is absent; the state is returned unchanged (the Go body only
reads). -/
def fifoGet (f : Fifo U) (k : String) : Option U × Fifo U :=
  match f.ll.find? (fun e => e.key == k) with
  | some en => (en.value, f)
  | none => (none, f)

/-- `(f *fifo) Len()`: number of live entries, `f.ll.Len()`. -/
def fifoLen (f : Fifo U) : Nat :=
  f.ll.length

/-- The keys currently indexed, in eviction order. -/
def fifoKeys (f : Fifo U) : List String :=
  f.ll.map (fun e => e.key)

/-- Sum of the byte sizes of the currently indexed values (keys are
excluded from accounting). -/
def sumLen (calcLen : Option U → Int) (f : Fifo U) : Int :=
  (f.ll.map (fun e => calcLen e.value)).sum

/-- A store operation, for stating invariants over operation sequences. -/
inductive Op (U : Type) where
  | set (k : String) (v : Option U)
  | del (k : String)
  | delOldest
  | get (k : String)

/-- Apply one operation, discarding the returned value and callbacks. -/
def applyOp (calcLen : Option U → Int) (f : Fifo U) : Op U → Fifo U
  | .set k v => (fifoSet calcLen f k v).1
  | .del k => (fifoDel calcLen f k).1
  | .delOldest => (fifoDelOldest calcLen f).1
  | .get k => (fifoGet f k).2

/-- Run a sequence of operations from a state. -/
def runOps (calcLen : Option U → Int) (f : Fifo U) : List (Op U) → Fifo U
  | [] => f
  | op :: ops => runOps calcLen (applyOp calcLen f op) ops

/-- Modelled from the spec: `cache.CalcLen` is absent from src/ (the
`cache` package is not among the sources); the spec fixes only that it is
a function from a stored value to an integer byte count.  Claims that
quantify over stores are settled relative to an admissible sizing; this
concrete instance, used for witnesses and counterexamples, sizes a stored
Nat as its own value and nil as 0. -/
def natLen : Option Nat → Int
  | some n => (n : Int)
  | none => 0

/-- Concrete store: maxBytes 10, then Set a:=1, Set b:=9, Set c:=10.
The third Set pushes usedBytes to 20, the single conditional DelOldest
removes only a (size 1), leaving b and c with usedBytes 19 > 10 although
neither remaining entry exceeds maxBytes on its own. -/
def storeOverfull : Fifo Nat :=
  (fifoSet natLen
    (fifoSet natLen
      (fifoSet natLen (fifoNew 10 false) "a" (some 1)).1 "b" (some 9)).1
    "c" (some 10)).1

/-- Concrete store: maxBytes 10, callback configured, entries a:=1 and
b:=2 in insertion order. -/
def storeAB : Fifo Nat :=
  (fifoSet natLen (fifoSet natLen (fifoNew 10 true) "a" (some 1)).1 "b" (some 2)).1

/-- Concrete store: unbounded, one entry whose stored value is the Go nil
(modelled as none). -/
def storeNilValue : Fifo Nat :=
  (fifoSet natLen (fifoNew 0 false) "k" none).1

/-- Concrete store: unbounded, one entry k := 7. -/
def storeK7 : Fifo Nat :=
  (fifoSet natLen (fifoNew 0 false) "k" (some 7)).1

/-- Erasing the entry that `find?` locates subtracts exactly its image
from the mapped sum. -/
theorem sum_map_eraseP {α : Type} {p : α → Bool} (g : α → Int) {l : List α} {a : α}
    (h : l.find? p = some a) :
    ((l.eraseP p).map g).sum = (l.map g).sum - g a := by
  induction l with
  | nil => simp at h
  | cons x t ih =>
      by_cases hx : p x
      · rw [List.find?_cons_of_pos t hx] at h
        injection h with h
        subst h
        rw [List.eraseP_cons_of_pos hx]
        simp
      · rw [List.find?_cons_of_neg t hx] at h
        rw [List.eraseP_cons_of_neg hx]
        simp only [List.map_cons, List.sum_cons, ih h]
        ring

/-- Erasing the entry that `find?` locates shortens the list by one. -/
theorem length_eraseP_of_find? {α : Type} {p : α → Bool} {l : List α} {a : α}
    (h : l.find? p = some a) :
    (l.eraseP p).length + 1 = l.length := by
  have hm : a ∈ l := List.mem_of_find?_eq_some h
  have hp : p a = true := List.find?_some h
  have hlen := List.length_eraseP_of_mem hm hp
  have hpos : 0 < l.length := List.length_pos_of_mem hm
  omega

/-- Under unique keys, after erasing the entry with key `k` no entry with
key `k` remains findable. -/
theorem find?_eraseP_key_none {U : Type} {l : List (Entry U)} {k : String}
    (hnd : (l.map (fun e => e.key)).Nodup) :
    (l.eraseP (fun e => e.key == k)).find? (fun e => e.key == k) = none := by
  induction l with
  | nil => simp
  | cons x t ih =>
      rw [List.map_cons, List.nodup_cons] at hnd
      by_cases hx : (x.key == k) = true
      · rw [List.eraseP_cons_of_pos (p := fun e : Entry U => e.key == k) hx]
        rw [List.find?_eq_none]
        intro e he hke
        have hxk : x.key = k := by simpa using hx
        have hek : e.key = k := by simpa using hke
        have hmem : e.key ∈ t.map (fun e => e.key) := List.mem_map_of_mem _ he
        rw [hek, ← hxk] at hmem
        exact hnd.1 hmem
      · rw [List.eraseP_cons_of_neg (p := fun e : Entry U => e.key == k) hx,
            List.find?_cons_of_neg (p := fun e : Entry U => e.key == k) _ hx]
        exact ih hnd.2

/-- A key different from the erased one survives the erasure. -/
theorem mem_keys_eraseP {U : Type} {l : List (Entry U)} {k k' : String} (hne : k' ≠ k)
    (h : k' ∈ l.map (fun e => e.key)) :
    k' ∈ (l.eraseP (fun e => e.key == k)).map (fun e => e.key) := by
  obtain ⟨e, he, hk⟩ := List.mem_map.1 h
  refine List.mem_map.2 ⟨e, ?_, hk⟩
  refine (List.mem_eraseP_of_neg ?_).2 he
  simp only [beq_iff_eq, hk]
  exact hne

/-- Case equation: removeElement of a nil element. -/
theorem removeElement_none (calcLen : Option U → Int) (f : Fifo U) :
    removeElement calcLen f none = (f, []) := rfl

/-- Case equation: DelOldest on an empty list is a no-op. -/
theorem fifoDelOldest_nil (calcLen : Option U → Int) {f : Fifo U} (h : f.ll = []) :
    fifoDelOldest calcLen f = (f, []) := by
  simp [fifoDelOldest, h, removeElement]

/-- Case equation: DelOldest on a nonempty list removes the front entry. -/
theorem fifoDelOldest_cons (calcLen : Option U → Int) {f : Fifo U} {e : Entry U}
    {t : List (Entry U)} (h : f.ll = e :: t) :
    fifoDelOldest calcLen f =
      ({ f with ll := t, usedBytes := f.usedBytes - calcLen e.value },
       if f.onEvicted then [(e.key, e.value)] else []) := by
  simp [fifoDelOldest, removeElement, h,
        List.eraseP_cons_of_pos (show (e.key == e.key) = true by simp)]

/-- Case equation: Set on a present key (the update path). -/
theorem fifoSet_update_eq (calcLen : Option U → Int) {f : Fifo U} {k : String} {v : Option U}
    {en : Entry U} (hf : f.ll.find? (fun e => e.key == k) = some en) :
    fifoSet calcLen f k v =
      ({ f with ll := f.ll.eraseP (fun e => e.key == k) ++ [⟨k, v⟩],
                usedBytes := f.usedBytes - calcLen en.value + calcLen v }, []) := by
  simp [fifoSet, hf]

/-- Case equation: Set on a new key (push at the tail, then the single
conditional DelOldest). -/
theorem fifoSet_new_eq (calcLen : Option U → Int) {f : Fifo U} {k : String} {v : Option U}
    (hf : f.ll.find? (fun e => e.key == k) = none) :
    fifoSet calcLen f k v =
      if f.maxBytes > 0 ∧ f.usedBytes + calcLen v > f.maxBytes then
        fifoDelOldest calcLen
          { f with ll := f.ll ++ [⟨k, v⟩], usedBytes := f.usedBytes + calcLen v }
      else
        ({ f with ll := f.ll ++ [⟨k, v⟩], usedBytes := f.usedBytes + calcLen v }, []) := by
  simp [fifoSet, hf]

/-- DelOldest keeps the byte accounting exact. -/
theorem usedBytes_fifoDelOldest (calcLen : Option U → Int) {f : Fifo U}
    (h : f.usedBytes = sumLen calcLen f) :
    (fifoDelOldest calcLen f).1.usedBytes = sumLen calcLen (fifoDelOldest calcLen f).1 := by
  cases hll : f.ll with
  | nil => rw [fifoDelOldest_nil calcLen hll]; exact h
  | cons e t =>
      rw [fifoDelOldest_cons calcLen hll]
      simp only [sumLen, hll] at h
      simp [sumLen] at h ⊢
      omega

/-- Removing a found element keeps the byte accounting exact. -/
theorem usedBytes_removeElement (calcLen : Option U → Int) {f : Fifo U} {en : Entry U}
    (h : f.usedBytes = sumLen calcLen f)
    (hfind : f.ll.find? (fun x => x.key == en.key) = some en) :
    (removeElement calcLen f (some en)).1.usedBytes
      = sumLen calcLen (removeElement calcLen f (some en)).1 := by
  have hs := sum_map_eraseP (fun e => calcLen e.value) hfind
  simp [removeElement, sumLen] at *
  omega

/-- Del keeps the byte accounting exact. -/
theorem usedBytes_fifoDel (calcLen : Option U → Int) {f : Fifo U} (k : String)
    (h : f.usedBytes = sumLen calcLen f) :
    (fifoDel calcLen f k).1.usedBytes = sumLen calcLen (fifoDel calcLen f k).1 := by
  cases hf : f.ll.find? (fun e => e.key == k) with
  | none => simp [fifoDel, hf, removeElement]; exact h
  | some en =>
      have hk : en.key = k := by simpa using List.find?_some hf
      have hfind : f.ll.find? (fun x => x.key == en.key) = some en := by rw [hk]; exact hf
      simp only [fifoDel, hf]
      exact usedBytes_removeElement calcLen h hfind

/-- Set keeps the byte accounting exact. -/
theorem usedBytes_fifoSet (calcLen : Option U → Int) {f : Fifo U} (k : String) (v : Option U)
    (h : f.usedBytes = sumLen calcLen f) :
    (fifoSet calcLen f k v).1.usedBytes = sumLen calcLen (fifoSet calcLen f k v).1 := by
  cases hf : f.ll.find? (fun e => e.key == k) with
  | some en =>
      rw [fifoSet_update_eq calcLen hf]
      have hs := sum_map_eraseP (fun e => calcLen e.value) hf
      simp [sumLen] at *
      omega
  | none =>
      rw [fifoSet_new_eq calcLen hf]
      split
      · apply usedBytes_fifoDelOldest
        simp [sumLen] at h ⊢
        omega
      · simp [sumLen] at h ⊢
        omega

/-- Every operation keeps the byte accounting exact. -/
theorem usedBytes_applyOp (calcLen : Option U → Int) {f : Fifo U}
    (h : f.usedBytes = sumLen calcLen f) (op : Op U) :
    (applyOp calcLen f op).usedBytes = sumLen calcLen (applyOp calcLen f op) := by
  cases op with
  | set k v => exact usedBytes_fifoSet calcLen k v h
  | del k => exact usedBytes_fifoDel calcLen k h
  | delOldest => exact usedBytes_fifoDelOldest calcLen h
  | get k => simp [applyOp, fifoGet]; split <;> exact h

/-- Running any operation sequence keeps the byte accounting exact. -/
theorem usedBytes_runOps (calcLen : Option U → Int) (ops : List (Op U)) :
    ∀ f : Fifo U, f.usedBytes = sumLen calcLen f →
      (runOps calcLen f ops).usedBytes = sumLen calcLen (runOps calcLen f ops) := by
  induction ops with
  | nil => intro f h; exact h
  | cons op t ih =>
      intro f h
      exact ih _ (usedBytes_applyOp calcLen h op)

/-- C2: for every sequence of Set, Del, DelOldest (and Get) operations on
a store created by New, usedBytes equals the sum of the byte sizes
(calcLen of the value; keys excluded) of all entries currently present in
the index, for every admissible sizing function, capacity, and callback
configuration. -/
theorem usedBytes_eq_sumLen (calcLen : Option U → Int) (mb : Int) (ev : Bool)
    (ops : List (Op U)) :
    (runOps calcLen (fifoNew mb ev) ops).usedBytes
      = sumLen calcLen (runOps calcLen (fifoNew mb ev) ops) :=
  usedBytes_runOps calcLen ops (fifoNew mb ev) (by simp [fifoNew, sumLen])

/-- C1 counterexample: in storeOverfull (maxBytes 10, Sets a:=1, b:=9,
c:=10) every entry's size is at most maxBytes, yet after the last Set
returned usedBytes is 19 > 10: eviction is a single conditional DelOldest
on the new-key path, not a loop that restores the bound. -/
theorem capacity_bound_counterexample :
    storeOverfull.maxBytes = 10 ∧
    storeOverfull.usedBytes = 19 ∧
    storeOverfull.maxBytes < storeOverfull.usedBytes ∧
    storeOverfull.ll = [⟨"b", some 9⟩, ⟨"c", some 10⟩] ∧
    natLen (some 9) ≤ storeOverfull.maxBytes ∧
    natLen (some 10) ≤ storeOverfull.maxBytes := by
  decide

/-- C1 (amended): a Set call evicts at most one entry — the entry count
never decreases across a Set, at most one callback fires, and a Set of an
already-present key performs no eviction at all; consequently usedBytes
is not in general at most maxBytes after a Set returns. -/
theorem fifoSet_evicts_at_most_one (calcLen : Option U → Int) (f : Fifo U)
    (k : String) (v : Option U) :
    fifoLen f ≤ fifoLen (fifoSet calcLen f k v).1 ∧
    (fifoSet calcLen f k v).2.length ≤ 1 ∧
    ((f.ll.find? (fun e => e.key == k)).isSome = true →
      (fifoSet calcLen f k v).2 = []) := by
  cases hf : f.ll.find? (fun e => e.key == k) with
  | some en =>
      rw [fifoSet_update_eq calcLen hf]
      have hlen := length_eraseP_of_find? hf
      refine ⟨?_, by simp, fun _ => rfl⟩
      simp [fifoLen]
      omega
  | none =>
      rw [fifoSet_new_eq calcLen hf]
      split
      · cases hll : f.ll with
        | nil =>
            rw [fifoDelOldest_cons calcLen
              (show _ = (⟨k, v⟩ : Entry U) :: [] by simp [hll])]
            refine ⟨by simp [fifoLen, hll], ?_, by simp [hf]⟩
            split <;> simp
        | cons e t =>
            rw [fifoDelOldest_cons calcLen (show _ = e :: (t ++ [⟨k, v⟩]) by simp [hll])]
            refine ⟨by simp [fifoLen, hll], ?_, by simp [hf]⟩
            split <;> simp
      · refine ⟨by simp [fifoLen], by simp, by simp [hf]⟩

/-- C1 witness: Set of the already-present key a in storeAB fires no
callback and evicts nothing. -/
theorem fifoSet_evicts_at_most_one_witness :
    (fifoSet natLen storeAB "a" (some 2)).2 = [] :=
  (fifoSet_evicts_at_most_one natLen storeAB "a" (some 2)).2.2 (by decide)

/-- C3 counterexample: a Set of an oversized value (size 100 > maxBytes
10) into an empty store evicts the freshly inserted entry itself, so zero
entries remain — not exactly one — and the callback fires for the new
entry. -/
theorem oversized_entry_counterexample :
    natLen (some 100) > (fifoNew 10 true : Fifo Nat).maxBytes ∧
    (fifoSet natLen (fifoNew 10 true) "c" (some 100)).1.ll = [] ∧
    fifoLen (fifoSet natLen (fifoNew 10 true) "c" (some 100)).1 = 0 ∧
    (fifoSet natLen (fifoNew 10 true) "c" (some 100)).2 = [("c", some 100)] := by
  decide

/-- C3 (amended): Set of a new key whose size alone exceeds maxBytes > 0
raises no error and performs exactly one head eviction: into an empty
store the new entry itself is evicted and the store ends empty; into a
nonempty store only the previous oldest entry is evicted and the
oversized entry remains at the tail (alongside any other survivors). -/
theorem fifoSet_oversized (calcLen : Option U → Int) (f : Fifo U) (k : String)
    (v : Option U)
    (hf : f.ll.find? (fun e => e.key == k) = none)
    (hmb : 0 < f.maxBytes) (hub : 0 ≤ f.usedBytes) (hov : f.maxBytes < calcLen v) :
    (f.ll = [] → (fifoSet calcLen f k v).1.ll = [] ∧
      (fifoSet calcLen f k v).1.usedBytes = f.usedBytes) ∧
    (∀ e t, f.ll = e :: t →
      (fifoSet calcLen f k v).1.ll = t ++ [⟨k, v⟩] ∧
      (fifoSet calcLen f k v).1.usedBytes
        = f.usedBytes + calcLen v - calcLen e.value) := by
  have hcond : f.maxBytes > 0 ∧ f.usedBytes + calcLen v > f.maxBytes :=
    ⟨hmb, by omega⟩
  rw [fifoSet_new_eq calcLen hf, if_pos hcond]
  constructor
  · intro hll
    rw [fifoDelOldest_cons calcLen (show _ = (⟨k, v⟩ : Entry U) :: [] by simp [hll])]
    simp
  · intro e t hll
    rw [fifoDelOldest_cons calcLen (show _ = e :: (t ++ [⟨k, v⟩]) by simp [hll])]
    exact ⟨by simp, by simp⟩

/-- C3 witness: the oversized Set into the empty store, with the
hypotheses discharged at maxBytes 10 and size 100. -/
theorem fifoSet_oversized_witness :
    (fifoSet natLen (fifoNew 10 true) "c" (some 100)).1.ll = [] ∧
    (fifoSet natLen (fifoNew 10 true) "c" (some 100)).1.usedBytes
      = (fifoNew 10 true : Fifo Nat).usedBytes :=
  (fifoSet_oversized natLen (fifoNew 10 true) "c" (some 100)
    (by decide) (by decide) (by decide) (by decide)).1 (by decide)

/-- C4: Set of an already-present key updates the entry in place: the
entry count is unchanged, usedBytes moves by the byte-size delta, the
entry sits at the tail of the eviction order with the new value, and Get
now returns the new value. -/
theorem fifoSet_update_path (calcLen : Option U → Int) (f : Fifo U) (k : String)
    (v : Option U) (en : Entry U)
    (hnd : (f.ll.map (fun e => e.key)).Nodup)
    (hf : f.ll.find? (fun e => e.key == k) = some en) :
    fifoLen (fifoSet calcLen f k v).1 = fifoLen f ∧
    (fifoSet calcLen f k v).1.usedBytes = f.usedBytes - calcLen en.value + calcLen v ∧
    (fifoSet calcLen f k v).1.ll.getLast? = some ⟨k, v⟩ ∧
    (fifoGet (fifoSet calcLen f k v).1 k).1 = v := by
  rw [fifoSet_update_eq calcLen hf]
  have hlen := length_eraseP_of_find? hf
  refine ⟨by simp [fifoLen]; omega, rfl, by simp, ?_⟩
  simp [fifoGet, List.find?_append, find?_eraseP_key_none hnd]

/-- C4 witness: re-Setting a := 5 in storeAB keeps two entries, moves a to
the tail with the new value, and adjusts usedBytes from 3 to 7. -/
theorem fifoSet_update_path_witness :
    fifoLen (fifoSet natLen storeAB "a" (some 5)).1 = fifoLen storeAB ∧
    (fifoSet natLen storeAB "a" (some 5)).1.usedBytes
      = storeAB.usedBytes - natLen (some 1) + natLen (some 5) ∧
    (fifoSet natLen storeAB "a" (some 5)).1.ll.getLast? = some ⟨"a", some 5⟩ ∧
    (fifoGet (fifoSet natLen storeAB "a" (some 5)).1 "a").1 = some 5 := by
  simpa using fifoSet_update_path natLen storeAB "a" (some 5) ⟨"a", some 1⟩
    (by decide) (by decide)

/-- C5: with a configured callback, each of the three removal paths — Del
of a present key, DelOldest on a nonempty store, and the capacity
eviction inside a Set of a new key — invokes the callback exactly once
with the removed entry's key and value, and the returned state no longer
indexes that key and has the entry's size subtracted from usedBytes. -/
theorem removal_invokes_callback_once (calcLen : Option U → Int) (f : Fifo U)
    (k : String) (v : Option U) (en : Entry U)
    (hev : f.onEvicted = true)
    (hnd : (f.ll.map (fun e => e.key)).Nodup) :
    (f.ll.find? (fun e => e.key == k) = some en →
      (fifoDel calcLen f k).2 = [(en.key, en.value)] ∧
      (fifoDel calcLen f k).1.ll.find? (fun e => e.key == en.key) = none ∧
      (fifoDel calcLen f k).1.usedBytes = f.usedBytes - calcLen en.value) ∧
    (f.ll.head? = some en →
      (fifoDelOldest calcLen f).2 = [(en.key, en.value)] ∧
      (fifoDelOldest calcLen f).1.ll.find? (fun e => e.key == en.key) = none ∧
      (fifoDelOldest calcLen f).1.usedBytes = f.usedBytes - calcLen en.value) ∧
    (f.ll.find? (fun e => e.key == k) = none → f.ll.head? = some en →
      0 < f.maxBytes → f.maxBytes < f.usedBytes + calcLen v →
      (fifoSet calcLen f k v).2 = [(en.key, en.value)] ∧
      (fifoSet calcLen f k v).1.ll.find? (fun e => e.key == en.key) = none ∧
      (fifoSet calcLen f k v).1.usedBytes
        = f.usedBytes + calcLen v - calcLen en.value) := by
  refine ⟨?_, ?_, ?_⟩
  · intro hf
    have hk : en.key = k := by simpa using List.find?_some hf
    simp only [fifoDel, hf, removeElement, hev, if_true]
    refine ⟨trivial, ?_, trivial⟩
    rw [hk]
    exact find?_eraseP_key_none hnd
  · intro hh
    cases hll : f.ll with
    | nil => rw [hll] at hh; simp at hh
    | cons e t =>
        rw [hll] at hh
        simp only [List.head?_cons, Option.some.injEq] at hh
        subst hh
        rw [fifoDelOldest_cons calcLen hll]
        rw [hll, List.map_cons, List.nodup_cons] at hnd
        refine ⟨by simp [hev], ?_, rfl⟩
        show (t.find? fun x => x.key == e.key) = none
        rw [List.find?_eq_none]
        intro x hx hxk
        have hxe : x.key = e.key := by simpa using hxk
        exact hnd.1 (hxe ▸ List.mem_map_of_mem _ hx)
  · intro hf hh hmb hover
    cases hll : f.ll with
    | nil => rw [hll] at hh; simp at hh
    | cons e t =>
        rw [hll] at hh
        simp only [List.head?_cons, Option.some.injEq] at hh
        subst hh
        have hne : e.key ≠ k := by
          have hmem : e ∈ f.ll := by rw [hll]; exact List.mem_cons_self e t
          simpa using List.find?_eq_none.1 hf e hmem
        have hcond : f.maxBytes > 0 ∧ f.usedBytes + calcLen v > f.maxBytes :=
          ⟨hmb, by omega⟩
        rw [fifoSet_new_eq calcLen hf, if_pos hcond]
        rw [fifoDelOldest_cons calcLen
          (show _ = e :: (t ++ [(⟨k, v⟩ : Entry U)]) by simp [hll])]
        rw [hll, List.map_cons, List.nodup_cons] at hnd
        refine ⟨by simp [hev], ?_, by simp⟩
        show ((t ++ [(⟨k, v⟩ : Entry U)]).find? fun x => x.key == e.key) = none
        rw [List.find?_append]
        have h1 : (t.find? fun x => x.key == e.key) = none := by
          rw [List.find?_eq_none]
          intro x hx hxk
          have hxe : x.key = e.key := by simpa using hxk
          exact hnd.1 (hxe ▸ List.mem_map_of_mem _ hx)
        have h2 : (([⟨k, v⟩] : List (Entry U)).find? fun x => x.key == e.key) = none := by
          have hkk : ¬((⟨k, v⟩ : Entry U).key == e.key) = true := by
            simpa using fun h : k = e.key => hne h.symm
          rw [List.find?_cons_of_neg (p := fun x : Entry U => x.key == e.key) _ hkk]
          rfl
        rw [h1, h2]
        rfl

/-- C5 witness: deleting the present key a from storeAB fires the
callback exactly once with a and its value 1, and the result no longer
indexes a. -/
theorem removal_invokes_callback_once_witness :
    (fifoDel natLen storeAB "a").2 = [("a", some 1)] ∧
    (fifoDel natLen storeAB "a").1.ll.find? (fun e => e.key == "a") = none ∧
    (fifoDel natLen storeAB "a").1.usedBytes = storeAB.usedBytes - natLen (some 1) := by
  simpa using
    (removal_invokes_callback_once natLen storeAB "a" none ⟨"a", some 1⟩
      (by decide) (by decide)).1 (by decide)

/-- C7 counterexample: storeNilValue holds the key k with the Go-nil value
stored; Get of k and Get of the absent key missing return the same
sentinel, so absence is not distinguishable from a stored nil. -/
theorem nil_value_ambiguity_counterexample :
    (fifoGet storeNilValue "k").1 = (fifoGet storeNilValue "missing").1 ∧
    "k" ∈ fifoKeys storeNilValue ∧
    "missing" ∉ fifoKeys storeNilValue := by
  decide

/-- C7 (amended): Get returns the stored value when the key is indexed and
the nil sentinel when it is absent; since nil is itself a storable value,
Get does not distinguish a stored nil from a missing key. -/
theorem fifoGet_present_absent (f : Fifo U) (k : String) :
    (∀ en, f.ll.find? (fun e => e.key == k) = some en →
      (fifoGet f k).1 = en.value) ∧
    (f.ll.find? (fun e => e.key == k) = none → (fifoGet f k).1 = none) := by
  constructor
  · intro en h
    simp [fifoGet, h]
  · intro h
    simp [fifoGet, h]

/-- C7 witness: Get on storeK7 returns the stored 7 for k and the nil
sentinel for an absent key. -/
theorem fifoGet_present_absent_witness :
    (fifoGet storeK7 "k").1 = some 7 ∧ (fifoGet storeK7 "zz").1 = none := by
  refine ⟨?_, ?_⟩
  · simpa using (fifoGet_present_absent storeK7 "k").1 ⟨"k", some 7⟩ (by decide)
  · exact (fifoGet_present_absent storeK7 "zz").2 (by decide)

/-- C8: Get leaves the entire store state — eviction order, index,
usedBytes, maxBytes, callback configuration — unchanged, whether the key
is present or absent. -/
theorem fifoGet_state_unchanged (f : Fifo U) (k : String) :
    (fifoGet f k).2 = f := by
  simp only [fifoGet]
  split <;> rfl

/-- C9: Del of an absent key and DelOldest on an empty store are no-ops:
the state is returned unchanged and no callback is invoked. -/
theorem del_absent_delOldest_empty_noop (calcLen : Option U → Int) (f : Fifo U)
    (k : String) :
    (f.ll.find? (fun e => e.key == k) = none → fifoDel calcLen f k = (f, [])) ∧
    (f.ll = [] → fifoDelOldest calcLen f = (f, [])) := by
  constructor
  · intro h
    simp [fifoDel, h, removeElement]
  · intro h
    exact fifoDelOldest_nil calcLen h

/-- C9 witness: both no-op cases on the empty store with maxBytes 10 and a
configured callback. -/
theorem del_absent_delOldest_empty_noop_witness :
    fifoDel natLen (fifoNew 10 true) "x" = (fifoNew 10 true, []) ∧
    fifoDelOldest natLen (fifoNew 10 true) = (fifoNew 10 true, []) :=
  ⟨(del_absent_delOldest_empty_noop natLen (fifoNew 10 true) "x").1 (by decide),
   (del_absent_delOldest_empty_noop natLen (fifoNew 10 true) "x").2 (by decide)⟩

/-- C10: Set of an already-present key removes no entry and invokes no
callback — every previously indexed key is still indexed afterwards and
the entry count is unchanged — with no condition on maxBytes, so this
holds even when the byte-size delta pushes usedBytes above the bound. -/
theorem fifoSet_update_no_eviction (calcLen : Option U → Int) (f : Fifo U)
    (k : String) (v : Option U) (en : Entry U)
    (hf : f.ll.find? (fun e => e.key == k) = some en) :
    (fifoSet calcLen f k v).2 = [] ∧
    fifoLen (fifoSet calcLen f k v).1 = fifoLen f ∧
    ∀ s, s ∈ fifoKeys f → s ∈ fifoKeys (fifoSet calcLen f k v).1 := by
  rw [fifoSet_update_eq calcLen hf]
  have hlen := length_eraseP_of_find? hf
  refine ⟨rfl, by simp [fifoLen]; omega, ?_⟩
  intro s hs
  simp only [fifoKeys] at hs ⊢
  by_cases hsk : s = k
  · subst hsk
    simp
  · simp only [List.map_append]
    exact List.mem_append.2 (Or.inl (mem_keys_eraseP hsk hs))

/-- C10 witness: re-Setting a := 100 in storeAB (maxBytes 10) pushes
usedBytes to 102 > 10, yet no callback fires and the entry count stays 2. -/
theorem fifoSet_update_no_eviction_witness :
    (fifoSet natLen storeAB "a" (some 100)).1.usedBytes > storeAB.maxBytes ∧
    (fifoSet natLen storeAB "a" (some 100)).2 = [] ∧
    fifoLen (fifoSet natLen storeAB "a" (some 100)).1 = fifoLen storeAB :=
  ⟨by decide,
   (fifoSet_update_no_eviction natLen storeAB "a" (some 100) ⟨"a", some 1⟩
      (by decide)).1,
   (fifoSet_update_no_eviction natLen storeAB "a" (some 100) ⟨"a", some 1⟩
      (by decide)).2.1⟩

end GoCache
